import Mathlib

/-!
Shallow embedding of the meeting-finalisation core of the repository
(`server/src/handlers/finalise_meeting.ts`): transcript segmentation, the
four entity extractors (people, decisions, risks, dates), summary
synthesis, and the `finaliseMeeting` orchestration with its precondition
checks and note-store update.

Strings are modelled as Lean `String` / `List Char`.  The JavaScript
regular expressions used by the source are embedded as deterministic
character scanners that reproduce the engine behaviour (leftmost match,
greedy quantifiers with the backtracking the concrete patterns admit,
`\b` word boundaries, global scanning that resumes after each match).
The source only distinguishes ASCII character classes (`[A-Z]`, `[a-z]`,
`\d`, explicit keyword strings); `\s` and `trim` are modelled on the
ASCII whitespace characters.
-/

namespace Meeting

/-- ASCII uppercase letter, the `[A-Z]` class of the source regexes. -/
def isUpperAZ (c : Char) : Bool := decide ('A' ≤ c) && decide (c ≤ 'Z')

/-- ASCII lowercase letter, the `[a-z]` class of the source regexes. -/
def isLowerAZ (c : Char) : Bool := decide ('a' ≤ c) && decide (c ≤ 'z')

/-- Decimal digit, the `\d` class of the source regexes. -/
def isDigit09 (c : Char) : Bool := decide ('0' ≤ c) && decide (c ≤ '9')

/-- Word character for JavaScript `\b` boundaries: `[A-Za-z0-9_]`. -/
def isWordChar (c : Char) : Bool :=
  isUpperAZ c || isLowerAZ c || isDigit09 c || decide (c = '_')

/-- Whitespace as matched by `\s` and removed by `trim` (ASCII part). -/
def isJsWS (c : Char) : Bool :=
  decide (c = ' ') || decide (c = '\t') || decide (c = '\n') ||
  decide (c = '\r') || decide (c = '\x0b') || decide (c = '\x0c')

/-- Sentence delimiters: the `[.!?]` class of `split(/[.!?]+/)`. -/
def isSentenceDelim (c : Char) : Bool :=
  decide (c = '.') || decide (c = '!') || decide (c = '?')

/-- ASCII lowercasing, the effect of `toLowerCase()` on the ASCII range. -/
def lowerChar (c : Char) : Char :=
  if isUpperAZ c then Char.ofNat (c.toNat + 32) else c

/-- `String.prototype.trim()` on a character list: drop whitespace from
both ends. -/
def jsTrim (l : List Char) : List Char :=
  ((l.dropWhile isJsWS).reverse.dropWhile isJsWS).reverse

/-- `split(/[.!?]+/)`: split on maximal nonempty runs of `.`, `!`, `?`.
Adjacent delimiters collapse; leading or trailing runs produce empty
fields, exactly as the JavaScript `split` does.  The fuel argument only
serves structural termination: every step consumes at least one input
character, so fuel equal to the input length never runs out. -/
def splitDelimAux : Nat → List Char → List Char → List (List Char)
  | _, acc, [] => [acc.reverse]
  | 0, acc, _ => [acc.reverse]
  | fuel + 1, acc, c :: cs =>
    if isSentenceDelim c then
      acc.reverse :: splitDelimAux fuel [] (cs.dropWhile isSentenceDelim)
    else
      splitDelimAux fuel (c :: acc) cs

/-- The sentence fields of `transcript.split(/[.!?]+/)`. -/
def splitSentences (t : String) : List String :=
  (splitDelimAux t.data.length [] t.data).map String.mk

/-- `haystack.includes(needle)` on character lists. -/
def containsSub (pat : List Char) : List Char → Bool
  | [] => pat.isEmpty
  | s@(_ :: cs) => pat.isPrefixOf s || containsSub pat cs

/-- `summary.includes(phrase)` at the `String` level; used to state that
an error message mentions a given phrase. -/
def mentions (phrase s : String) : Bool := containsSub phrase.data s.data

/-! ### Generic global regex scanning

`scanAux tryAt fuel prev s` models `text.match(re)` with a global regex:
at each position it attempts a match (`tryAt` receives the previous
character, for `\b`, and the remaining input); on success the match is
recorded and scanning resumes immediately after it, otherwise scanning
advances one character.  All matchers used here return nonempty matches,
so fuel `s.length + 1` is enough to exhaust the input. -/

def scanAux (tryAt : Option Char → List Char → Option (List Char × List Char)) :
    Nat → Option Char → List Char → List (List Char)
  | 0, _, _ => []
  | _ + 1, _, [] => []
  | fuel + 1, prev, c :: cs =>
    match tryAt prev (c :: cs) with
    | some (m, rest) => m :: scanAux tryAt fuel (some (m.getLastD c)) rest
    | none => scanAux tryAt fuel (some c) cs

/-- `s.match(re) || []` for a global regex embodied by `tryAt`. -/
def scanMatches
    (tryAt : Option Char → List Char → Option (List Char × List Char))
    (s : List Char) : List (List Char) :=
  scanAux tryAt (s.length + 1) none s

/-- `\b` to the left of the match: start of input or a preceding
non-word character (the first matched character is always a word
character for the patterns embedded here). -/
def bdryBefore : Option Char → Bool
  | none => true
  | some p => !isWordChar p

/-- `\b` to the right of the match: end of input or a following
non-word character (the last matched character is always a word
character for the patterns embedded here). -/
def bdryAfter : List Char → Bool
  | [] => true
  | c :: _ => !isWordChar c

/-! ### People extraction: `/\b[A-Z][a-z]+(?:\s[A-Z][a-z]+)*\b/g` -/

/-- Greedily consume further `\s[A-Z][a-z]+` groups, returning the
consumed groups (as segments) and the remaining input. -/
def nameGroups : Nat → List Char → List (List Char) × List Char
  | 0, s => ([], s)
  | fuel + 1, s =>
    match s with
    | w :: u :: rest =>
      if isJsWS w && isUpperAZ u then
        match rest.span isLowerAZ with
        | (low, rest1) =>
          if low.isEmpty then ([], s)
          else
            let (gs, r) := nameGroups fuel rest1
            ((w :: u :: low) :: gs, r)
      else ([], s)
    | _ => ([], s)

/-- One match attempt of the people pattern at the current position.
After the greedy core fails the trailing `\b`, the engine can only
recover by dropping the last `(?:\s[A-Z][a-z]+)` iteration (shrinking a
`[a-z]+` run always re-fails the boundary), which is what the fallback
branch does. -/
def tryNameAt (prev : Option Char) (s : List Char) :
    Option (List Char × List Char) :=
  match s with
  | [] => none
  | c :: cs =>
    if bdryBefore prev && isUpperAZ c then
      match cs.span isLowerAZ with
      | (low, rest1) =>
        if low.isEmpty then none
        else
          match nameGroups rest1.length rest1 with
          | (gs, rest2) =>
            if bdryAfter rest2 then
              some ((c :: low) ++ gs.flatten, rest2)
            else
              match gs.getLast? with
              | none => none
              | some dropped =>
                some ((c :: low) ++ gs.dropLast.flatten, dropped ++ rest2)
    else none

/-- The raw people-pattern matches of the transcript. -/
def peopleMatches (transcript : String) : List String :=
  (scanMatches tryNameAt transcript.data).map String.mk

/-- The denylist of capitalized non-names filtered out by the source. -/
def commonWords : List String :=
  ["The", "This", "That", "Monday", "Tuesday", "Wednesday", "Thursday",
   "Friday", "Saturday", "Sunday", "January", "February", "March", "April",
   "May", "June", "July", "August", "September", "October", "November",
   "December"]

/-- `[...new Set(xs)]`: deduplicate keeping the first occurrence. -/
def dedupFirstAux : List String → List String → List String
  | _, [] => []
  | seen, x :: xs =>
    if x ∈ seen then dedupFirstAux seen xs
    else x :: dedupFirstAux (x :: seen) xs

/-- Order-preserving deduplication. -/
def dedupFirst (l : List String) : List String := dedupFirstAux [] l

/-- `extractPeople`: match the name pattern globally, drop exact
denylist words, deduplicate, truncate to 10. -/
def extractPeople (transcript : String) : List String :=
  (dedupFirst ((peopleMatches transcript).filter
    (fun name => !commonWords.contains name))).take 10

/-! ### Decision and risk extraction (keyword containment, first match
per sentence wins) -/

/-- A `{decision, context}` record of the entities payload. -/
structure Decision where
  decision : String
  context : String
deriving DecidableEq, Repr

/-- A `{risk, severity}` record of the entities payload. -/
structure Risk where
  risk : String
  severity : String
deriving DecidableEq, Repr

/-- A `{date, context}` record of the entities payload. -/
structure DateEntry where
  date : String
  context : String
deriving DecidableEq, Repr

/-- The decision keyword list, in source order. -/
def decisionKeywords : List String :=
  ["decided", "agreed", "resolved", "concluded", "determined", "will do",
   "action item"]

/-- The risk keyword list, in source order. -/
def riskKeywords : List String :=
  ["risk", "concern", "issue", "problem", "challenge", "blocker",
   "obstacle"]

/-- The inner `for (const keyword of keywords) { if (...) break }` loop:
the first keyword contained in the lowered sentence, if any. -/
def firstKeyword (keys : List String) (lowered : List Char) : Option String :=
  keys.find? (fun k => containsSub k.data lowered)

/-- `extractDecisions`: per sentence, record the trimmed sentence with
the first matching keyword; truncate to 5. -/
def extractDecisions (t : String) : List Decision :=
  ((splitSentences t).filterMap (fun s =>
    (firstKeyword decisionKeywords (s.data.map lowerChar)).map
      (fun k => Decision.mk (String.mk (jsTrim s.data)) k))).take 5

/-- The severity heuristic applied to the lowered sentence. -/
def severityOf (lowered : List Char) : String :=
  if containsSub "critical".data lowered || containsSub "urgent".data lowered
  then "high"
  else if containsSub "minor".data lowered || containsSub "small".data lowered
  then "low"
  else "medium"

/-- `extractRisks`: per sentence, on the first matching risk keyword
record the trimmed sentence with its heuristic severity; truncate to
5. -/
def extractRisks (t : String) : List Risk :=
  ((splitSentences t).filterMap (fun s =>
    let lowered := s.data.map lowerChar
    (firstKeyword riskKeywords lowered).map
      (fun _ => Risk.mk (String.mk (jsTrim s.data)) (severityOf lowered)))).take 5

/-! ### Date extraction: four global patterns per sentence -/

/-- One match attempt of `/\b\d{1,2}SEP\d{1,2}SEP\d{4}\b/` (with `SEP`
the slash or the dash).  The greedy `\d{1,2}` quantifiers admit no
successful backtracking beyond what the maximal digit runs decide, so a
run of one or two digits followed by the separator is the only way a
component matches. -/
def tryNumDateAt (sep : Char) (prev : Option Char) (s : List Char) :
    Option (List Char × List Char) :=
  if bdryBefore prev then
    match s.span isDigit09 with
    | (d1, r1) =>
      if d1.length = 1 || d1.length = 2 then
        match r1 with
        | c1 :: r2 =>
          if c1 = sep then
            match r2.span isDigit09 with
            | (d2, r3) =>
              if d2.length = 1 || d2.length = 2 then
                match r3 with
                | c2 :: r4 =>
                  if c2 = sep then
                    match r4.span isDigit09 with
                    | (y, r5) =>
                      if y.length = 4 && bdryAfter r5 then
                        some (d1 ++ c1 :: d2 ++ c2 :: y, r5)
                      else none
                  else none
                | [] => none
              else none
          else none
        | [] => none
      else none
  else none

/-- The twelve full month names, the third date pattern alternation. -/
def monthFulls : List String :=
  ["January", "February", "March", "April", "May", "June", "July",
   "August", "September", "October", "November", "December"]

/-- The twelve abbreviated month names, the fourth date pattern
alternation. -/
def monthAbbrs : List String :=
  ["Jan", "Feb", "Mar", "Apr", "May", "Jun", "Jul", "Aug", "Sep", "Oct",
   "Nov", "Dec"]

/-- The optional comma `,?` after the day: consumed when present (the
no-comma fallback of the engine always fails afterwards, since the
comma itself cannot match `\s+`). -/
def commaSplit (l : List Char) : List Char × List Char :=
  match l with
  | ',' :: rr => ([','], rr)
  | r => ([], r)

/-- The tail `\s+\d{1,2},?\s+\d{4}\b` of the month date patterns,
matched right after a month name (`span p l` is
`(takeWhile p l, dropWhile p l)`).  The greedy `\s+` and `\d{1,2}`
quantifiers admit no successful backtracking beyond the maximal runs,
and `\d{4}` plus the final `\b` force the year digit run to have length
exactly 4. -/
def monthTail (r0 : List Char) : Option (List Char × List Char) :=
  let ws1 := r0.takeWhile isJsWS
  let r1 := r0.dropWhile isJsWS
  if ws1.isEmpty then none
  else
    let d := r1.takeWhile isDigit09
    let r2 := r1.dropWhile isDigit09
    if d.length = 1 || d.length = 2 then
      let cr := commaSplit r2
      let ws2 := cr.2.takeWhile isJsWS
      let r4 := cr.2.dropWhile isJsWS
      if ws2.isEmpty then none
      else
        let y := r4.takeWhile isDigit09
        let r5 := r4.dropWhile isDigit09
        if y.length = 4 && bdryAfter r5 then
          some (ws1 ++ d ++ cr.1 ++ ws2 ++ y, r5)
        else none
    else none

/-- One match attempt of `/\b(?:M1|...|M12)\s+\d{1,2},?\s+\d{4}\b/`.
No month name is a prefix of another within either alternation, so at
most one alternative can apply at a position, and `find?` reproduces
the ordered alternation. -/
def tryMonthDateAt (months : List String) (prev : Option Char)
    (s : List Char) : Option (List Char × List Char) :=
  if bdryBefore prev then
    match months.find? (fun m => m.data.isPrefixOf s) with
    | none => none
    | some m =>
      (monthTail (s.drop m.length)).map (fun p => (m.data ++ p.1, p.2))
  else none

/-- A date of the shape matched by both month patterns when the month
is "May": the word "May", a space, a day digit group, a comma, a space,
and a year digit group. -/
def mayDate (d y : List Char) : List Char :=
  'M' :: 'a' :: 'y' :: ' ' :: (d ++ ',' :: ' ' :: y)

/-- The character immediately preceding the current scan position once
a prefix has been passed: the last character of the prefix, or the
incoming previous character when the prefix is empty. -/
def prevAt (pre : List Char) (prev : Option Char) : Option Char :=
  match pre.getLast? with
  | some c => some c
  | none => prev

/-- All matches of the four date patterns in one sentence, pattern by
pattern, each pattern scanned globally over the sentence. -/
def dateMatchesIn (sentence : List Char) : List (List Char) :=
  scanMatches (tryNumDateAt '/') sentence ++
  scanMatches (tryNumDateAt '-') sentence ++
  scanMatches (tryMonthDateAt monthFulls) sentence ++
  scanMatches (tryMonthDateAt monthAbbrs) sentence

/-- The full date collection of `extractDates` before the final
truncation: sentences in document order, patterns in source order
within a sentence, the trimmed sentence as the context of each match. -/
def collectDates (t : String) : List DateEntry :=
  ((splitSentences t).map (fun s =>
    (dateMatchesIn s.data).map (fun m =>
      DateEntry.mk (String.mk m) (String.mk (jsTrim s.data))))).flatten

/-- `extractDates`: the collected matches truncated to 5. -/
def extractDates (t : String) : List DateEntry := (collectDates t).take 5

/-! ### Summary synthesis and the transcript processor -/

/-- `generateSummary`, translated clause by clause from the source. -/
def generateSummary (sentences people : List String)
    (decisions : List Decision) : String :=
  let totalSentences := sentences.length
  let participantCount := people.length
  let decisionCount := decisions.length
  let s1 := "Meeting summary: This meeting involved " ++
    (if participantCount > 0 then toString participantCount ++ " participants"
     else "multiple participants")
  let s2 :=
    if people.length > 0 then
      s1 ++ " including " ++ String.intercalate ", " (people.take 3) ++
        (if people.length > 3 then
          " and " ++ toString (people.length - 3) ++ " others"
         else "")
    else s1
  let s3 := s2 ++ ". "
  let s4 :=
    if decisionCount > 0 then
      s3 ++ toString decisionCount ++ " key decision" ++
        (if decisionCount > 1 then "s were" else " was") ++
        " made during the discussion. "
    else s3
  let s5 :=
    if totalSentences > 2 then
      match sentences.get? (totalSentences / 2) with
      | some sent =>
        let key := String.mk (jsTrim sent.data)
        if key.length > 20 then s4 ++ "Key discussion point: " ++ key ++ ". "
        else s4
      | none => s4
    else s4
  s5 ++ "The meeting covered various topics and lasted for approximately " ++
    toString ((totalSentences + 9) / 10) ++ " minutes of discussion."

/-- The `entities` payload assembled by `processTranscript`. -/
structure Entities where
  decisions : List Decision
  risks : List Risk
  people : List String
  dates : List DateEntry
deriving DecidableEq, Repr

/-- The sentence list used for the summary: the split fields whose trim
is nonempty (the fields themselves are kept untrimmed). -/
def filteredSentences (t : String) : List String :=
  (splitSentences t).filter (fun s => (jsTrim s.data).length > 0)

/-- `processTranscript`: run the extractors and the synthesizer on the
transcript.  (The source also computes a lowercased word split that it
never uses, and awaits a simulated delay; both are dropped as
observationally irrelevant.) -/
def processTranscript (transcript : String) : String × Entities :=
  let people := extractPeople transcript
  let decisions := extractDecisions transcript
  let risks := extractRisks transcript
  let dates := extractDates transcript
  let summary := generateSummary (filteredSentences transcript) people decisions
  (summary, Entities.mk decisions risks people dates)

/-! ### The finalise operation over a note store -/

/-- A note row as consumed by the handler.  `source` carries the string
of the `source` enum (`manual`, `meeting`, `import`). -/
structure Note where
  id : String
  title : String
  source : String
  content_md : Option String
  transcript_text : Option String
  summary_text : Option String
  entities : Option Entities
  updated_at : Nat

/-- The note store the handler reads and writes, keyed by note id. -/
def Store := String → Option Note

/-- `!note.transcript_text || note.transcript_text.trim() === ''`. -/
def transcriptMissing : Option String → Bool
  | none => true
  | some s => s = "" || String.mk (jsTrim s.data) = ""

/-- `finaliseMeeting`: fetch, validate (missing note, then non-meeting
source, then missing transcript), process, then write the processed
data back.  The returned store reflects the single update the handler
issues on success; every rejection leaves the store untouched. -/
def finaliseMeeting (store : Store) (noteId : String) (now : Nat) :
    Except String (String × Entities) × Store :=
  match store noteId with
  | none => (.error ("Note with id " ++ noteId ++ " not found"), store)
  | some note =>
    if note.source ≠ "meeting" then
      (.error "Note must be from a meeting source to finalize", store)
    else if transcriptMissing note.transcript_text then
      (.error "Note must have transcript text to finalize", store)
    else
      let processed := processTranscript (note.transcript_text.getD "")
      (.ok processed, fun i =>
        if i = noteId then
          some { note with
                  summary_text := some processed.1,
                  entities := some processed.2,
                  updated_at := now }
        else store i)

/-- The summary recipe transcribed clause-for-clause from the
specification text (section 4.6): a flat concatenation in which the
"Key discussion point" clause is present exactly when there are more
than 2 sentences, the middle sentence exists, and its trimmed length
exceeds 20 characters.  This definition follows the words of the spec
and is compared against `generateSummary`, which is translated from the
source. -/
def specSummaryRecipe (sentences people : List String)
    (decisions : List Decision) : String :=
  "Meeting summary: This meeting involved " ++
  (if people.length > 0 then toString people.length ++ " participants"
   else "multiple participants") ++
  (if people.length > 0 then
    " including " ++ String.intercalate ", " (people.take 3) ++
      (if people.length > 3 then
        " and " ++ toString (people.length - 3) ++ " others"
       else "")
   else "") ++
  ". " ++
  (if decisions.length > 0 then
    toString decisions.length ++ " key decision" ++
      (if decisions.length > 1 then "s were" else " was") ++
      " made during the discussion. "
   else "") ++
  (if sentences.length > 2 then
    match sentences.get? (sentences.length / 2) with
    | some sent =>
      if (String.mk (jsTrim sent.data)).length > 20 then
        "Key discussion point: " ++ String.mk (jsTrim sent.data) ++ ". "
      else ""
    | none => ""
   else "") ++
  "The meeting covered various topics and lasted for approximately " ++
  toString ((sentences.length + 9) / 10) ++ " minutes of discussion."

/-! ### Helper lemmas -/

/-- A substring of the right part is a substring of the whole. -/
theorem containsSub_append_right (pat l r : List Char)
    (h : containsSub pat r = true) : containsSub pat (l ++ r) = true := by
  induction l with
  | nil => simpa using h
  | cons c cs ih =>
    simp only [List.cons_append, containsSub, Bool.or_eq_true]
    exact Or.inr ih

/-- Elements of the input not yet seen survive `dedupFirstAux`. -/
theorem mem_dedupFirstAux :
    ∀ (l seen : List String) (x : String), x ∈ l → x ∉ seen →
      x ∈ dedupFirstAux seen l := by
  intro l
  induction l with
  | nil => intro seen x hx; cases hx
  | cons y ys ih =>
    intro seen x hx hseen
    by_cases hy : y ∈ seen
    · simp only [dedupFirstAux, if_pos hy]
      rcases List.mem_cons.1 hx with rfl | hx2
      · exact absurd hy hseen
      · exact ih seen x hx2 hseen
    · simp only [dedupFirstAux, if_neg hy, List.mem_cons]
      rcases List.mem_cons.1 hx with rfl | hx2
      · exact Or.inl rfl
      · by_cases hxy : x = y
        · exact Or.inl hxy
        · refine Or.inr (ih (y :: seen) x hx2 ?_)
          simp only [List.mem_cons, not_or]
          exact ⟨hxy, hseen⟩

/-- Elements of the input survive `dedupFirst`. -/
theorem mem_dedupFirst (l : List String) (x : String) (hx : x ∈ l) :
    x ∈ dedupFirst l :=
  mem_dedupFirstAux l [] x hx (by simp)

/-- `find?` returns a satisfying element, and every element strictly
before it fails the predicate. -/
theorem find?_first (p : String → Bool) :
    ∀ (l : List String) (k : String), l.find? p = some k →
      p k = true ∧ ∀ k2 ∈ l.takeWhile (fun x => x != k), p k2 = false := by
  intro l
  induction l with
  | nil => intro k h; cases h
  | cons a as ih =>
    intro k h
    by_cases hpa : p a = true
    · rw [List.find?_cons_of_pos _ hpa] at h
      obtain rfl : a = k := by injection h
      refine ⟨hpa, ?_⟩
      intro k2 hk2
      simp [List.takeWhile_cons] at hk2
    · rw [List.find?_cons_of_neg _ (by simpa using hpa)] at h
      obtain ⟨hpk, hrest⟩ := ih k h
      have hak : a ≠ k := by
        intro he; rw [he] at hpa; exact hpa hpk
      refine ⟨hpk, ?_⟩
      intro k2 hk2
      rw [List.takeWhile_cons] at hk2
      simp only [bne_iff_ne, ne_eq, hak, not_false_eq_true, decide_True,
        if_true] at hk2
      rcases List.mem_cons.1 hk2 with rfl | hk2t
      · simpa using hpa
      · exact hrest k2 hk2t

/-- A boolean prefix is an actual prefix. -/
theorem isPrefixOf_exists_append :
    ∀ (a b : List Char), a.isPrefixOf b = true → ∃ t, b = a ++ t := by
  intro a
  induction a with
  | nil => intro b _; exact ⟨b, rfl⟩
  | cons x xs ih =>
    intro b h
    cases b with
    | nil => simp [List.isPrefixOf] at h
    | cons y ys =>
      simp only [List.isPrefixOf, Bool.and_eq_true, beq_iff_eq] at h
      obtain ⟨rfl, h2⟩ := h
      obtain ⟨t, rfl⟩ := ih ys h2
      exact ⟨t, rfl⟩

/-- `takeWhile` passes over a block of satisfying elements. -/
theorem takeWhile_append_all (p : Char → Bool) (A B : List Char)
    (hA : ∀ c ∈ A, p c = true) :
    (A ++ B).takeWhile p = A ++ B.takeWhile p := by
  induction A with
  | nil => simp
  | cons a A ih =>
    simp only [List.cons_append, List.takeWhile_cons,
      hA a (List.mem_cons_self a A), if_true]
    rw [ih (fun c hc => hA c (List.mem_cons_of_mem a hc))]

/-- `dropWhile` passes over a block of satisfying elements. -/
theorem dropWhile_append_all (p : Char → Bool) (A B : List Char)
    (hA : ∀ c ∈ A, p c = true) :
    (A ++ B).dropWhile p = B.dropWhile p := by
  induction A with
  | nil => simp
  | cons a A ih =>
    simp only [List.cons_append, List.dropWhile_cons,
      hA a (List.mem_cons_self a A), if_true]
    exact ih (fun c hc => hA c (List.mem_cons_of_mem a hc))

/-! ### C4 — size caps on the entity lists -/

/-- C4: for every transcript, the `entities` lists respect the caps
10/5/5/5 enforced by the final truncations of the extractors. -/
theorem entity_list_caps (t : String) :
    (extractPeople t).length ≤ 10 ∧ (extractDecisions t).length ≤ 5 ∧
    (extractRisks t).length ≤ 5 ∧ (extractDates t).length ≤ 5 :=
  ⟨List.length_take_le 10 _, List.length_take_le 5 _,
   List.length_take_le 5 _, List.length_take_le 5 _⟩

/-! ### C1 — the people example of the spec -/

/-- C1 counterexample: on the spec transcript the people list never
contains the bare string "John Smith": the regex match is maximal, so
the adjacent capitalized word "Monday" is absorbed into a single match
"Monday John Smith", and the denylist only removes exact-equal words. -/
theorem people_example_no_john_smith :
    "John Smith" ∉
      extractPeople "Monday John Smith discussed the plan with The Committee." := by
  decide

/-- C1 amended: on the spec transcript the extracted people list is
exactly ["Monday John Smith", "The Committee"]; it contains "John
Smith" only inside the maximal match "Monday John Smith", and contains
neither "Monday" nor "The" as standalone entries. -/
theorem people_example_amended :
    extractPeople "Monday John Smith discussed the plan with The Committee."
        = ["Monday John Smith", "The Committee"] ∧
    "Monday" ∉
      extractPeople "Monday John Smith discussed the plan with The Committee." ∧
    "The" ∉
      extractPeople "Monday John Smith discussed the plan with The Committee." := by
  refine ⟨by rfl, by decide, by decide⟩

/-! ### C9 — the denylist removes exact matches only -/

/-- C9: the denylist filter of `extractPeople` removes only matches
that are string-equal to a listed word — any surviving match reaches
the deduplicated list — and on the example transcript the multi-word
matches "Monday John Smith" and "The Committee", each containing a
denylist word as a component, remain in the extracted people list. -/
theorem people_denylist_exact_only :
    (∀ (t : String) (name : String), name ∈ peopleMatches t →
      name ∉ commonWords →
      name ∈ dedupFirst ((peopleMatches t).filter
        (fun n => !commonWords.contains n))) ∧
    "Monday John Smith" ∈
      extractPeople "Monday John Smith discussed the plan with The Committee." ∧
    "The Committee" ∈
      extractPeople "Monday John Smith discussed the plan with The Committee." := by
  refine ⟨?_, by decide, by decide⟩
  intro t name hmem hnot
  apply mem_dedupFirst
  rw [List.mem_filter]
  refine ⟨hmem, ?_⟩
  simp [hnot]

/-- C9 witness: the general filter statement applied to the example
transcript and the match "Monday John Smith". -/
theorem people_denylist_exact_only_witness :
    ("Monday John Smith" ∈
      peopleMatches "Monday John Smith discussed the plan with The Committee.") ∧
    "Monday John Smith" ∉ commonWords ∧
    "Monday John Smith" ∈ dedupFirst
      ((peopleMatches "Monday John Smith discussed the plan with The Committee.").filter
        (fun n => !commonWords.contains n)) :=
  ⟨by decide, by decide,
   people_denylist_exact_only.1 _ "Monday John Smith" (by decide) (by decide)⟩

/-! ### C6 — the date example of the spec -/

/-- C6: on the spec transcript the extracted dates are exactly the
three verbatim substrings, slash pattern first, then dash, then full
month name, each carrying the trimmed sentence as context. -/
theorem dates_example :
    extractDates
        "Meeting on 03/15/2024 and deadline 04-01-2024 and review on January 5, 2024."
      = [DateEntry.mk "03/15/2024"
           "Meeting on 03/15/2024 and deadline 04-01-2024 and review on January 5, 2024",
         DateEntry.mk "04-01-2024"
           "Meeting on 03/15/2024 and deadline 04-01-2024 and review on January 5, 2024",
         DateEntry.mk "January 5, 2024"
           "Meeting on 03/15/2024 and deadline 04-01-2024 and review on January 5, 2024"] := by
  rfl

/-! ### C5 — decision keyword priority -/

/-- C5: every extracted decision comes from a sentence of the split,
carries the trimmed sentence, and its context is a decision keyword
contained in the lowered sentence such that no keyword listed earlier
is contained in it; and on the example sentence the context is
"decided", not "agreed". -/
theorem decisions_first_keyword :
    (∀ (t : String) (d : Decision), d ∈ extractDecisions t →
      ∃ s ∈ splitSentences t,
        d.decision = String.mk (jsTrim s.data) ∧
        d.context ∈ decisionKeywords ∧
        containsSub d.context.data (s.data.map lowerChar) = true ∧
        ∀ k ∈ decisionKeywords.takeWhile (fun x => x != d.context),
          containsSub k.data (s.data.map lowerChar) = false) ∧
    extractDecisions "We decided and also agreed on the plan."
      = [Decision.mk "We decided and also agreed on the plan" "decided"] := by
  refine ⟨?_, by rfl⟩
  intro t d hd
  have hd' : d ∈ ((splitSentences t).filterMap (fun s =>
      (firstKeyword decisionKeywords (s.data.map lowerChar)).map
        (fun k => Decision.mk (String.mk (jsTrim s.data)) k))).take 5 := hd
  obtain ⟨s, hs, hf⟩ := List.mem_filterMap.1 (List.mem_of_mem_take hd')
  obtain ⟨k, hk, hdk⟩ := Option.map_eq_some'.1 hf
  obtain ⟨hpk, hearlier⟩ := find?_first _ _ _ hk
  subst hdk
  exact ⟨s, hs, rfl, List.mem_of_find?_eq_some hk, hpk, hearlier⟩

/-- C5 witness: the general statement applied to the example sentence
and its extracted decision. -/
theorem decisions_first_keyword_witness :
    (Decision.mk "We decided and also agreed on the plan" "decided"
        ∈ extractDecisions "We decided and also agreed on the plan.") ∧
    ∃ s ∈ splitSentences "We decided and also agreed on the plan.",
      (Decision.mk "We decided and also agreed on the plan" "decided").decision
          = String.mk (jsTrim s.data) ∧
      (Decision.mk "We decided and also agreed on the plan" "decided").context
          ∈ decisionKeywords ∧
      containsSub "decided".data (s.data.map lowerChar) = true ∧
      ∀ k ∈ decisionKeywords.takeWhile (fun x => x != "decided"),
        containsSub k.data (s.data.map lowerChar) = false :=
  ⟨by decide, decisions_first_keyword.1 _ _ (by decide)⟩

/-! ### C2 — precondition error taxonomy and check order -/

/-- C2: a missing note rejects with a message mentioning "not found"; a
note with a non-meeting source rejects with the "meeting source"
message regardless of its transcript (the source check runs first); a
meeting note with a missing or whitespace-only transcript rejects with
the "transcript text" message; and the two precondition messages each
mention only their own phrase, so the rejection kinds exclude one
another. -/
theorem finalise_precondition_errors :
    ∀ (store : Store) (noteId : String) (now : Nat),
      (store noteId = none →
        (finaliseMeeting store noteId now).1
            = Except.error ("Note with id " ++ noteId ++ " not found") ∧
        mentions "not found" ("Note with id " ++ noteId ++ " not found")
            = true) ∧
      (∀ note, store noteId = some note → note.source ≠ "meeting" →
        (finaliseMeeting store noteId now).1
            = Except.error "Note must be from a meeting source to finalize" ∧
        mentions "meeting source"
            "Note must be from a meeting source to finalize" = true ∧
        mentions "not found"
            "Note must be from a meeting source to finalize" = false ∧
        mentions "transcript text"
            "Note must be from a meeting source to finalize" = false) ∧
      (∀ note, store noteId = some note → note.source = "meeting" →
        transcriptMissing note.transcript_text = true →
        (finaliseMeeting store noteId now).1
            = Except.error "Note must have transcript text to finalize" ∧
        mentions "transcript text"
            "Note must have transcript text to finalize" = true ∧
        mentions "meeting source"
            "Note must have transcript text to finalize" = false ∧
        mentions "not found"
            "Note must have transcript text to finalize" = false) := by
  intro store noteId now
  refine ⟨?_, ?_, ?_⟩
  · intro h
    refine ⟨by simp [finaliseMeeting, h], ?_⟩
    show containsSub "not found".data
      ("Note with id " ++ (noteId ++ " not found")).data = true
    rw [String.data_append, String.data_append]
    exact containsSub_append_right _ _ _
      (containsSub_append_right _ _ _ (by decide))
  · intro note h hsrc
    exact ⟨by simp [finaliseMeeting, h, hsrc], by decide, by decide, by decide⟩
  · intro note h hsrc htr
    exact ⟨by simp [finaliseMeeting, h, hsrc, htr], by decide, by decide,
      by decide⟩

/-- C2 witness: the three rejection branches at concrete stores — a
missing id, a manual-source note with a transcript, and a meeting note
with a whitespace-only transcript. -/
theorem finalise_precondition_errors_witness :
    ((fun _ => none : Store) "missing" = none ∧
      (finaliseMeeting (fun _ => none) "missing" 0).1
          = Except.error ("Note with id " ++ "missing" ++ " not found")) ∧
    ((fun _ => some (Note.mk "a" "T" "manual" none (some "Hello there.")
        none none 0) : Store) "a"
        = some (Note.mk "a" "T" "manual" none (some "Hello there.") none none 0) ∧
      (Note.mk "a" "T" "manual" none (some "Hello there.") none none 0).source
          ≠ "meeting" ∧
      (finaliseMeeting
          (fun _ => some (Note.mk "a" "T" "manual" none (some "Hello there.")
            none none 0)) "a" 0).1
          = Except.error "Note must be from a meeting source to finalize") ∧
    ((fun _ => some (Note.mk "b" "T" "meeting" none (some "   ")
        none none 0) : Store) "b"
        = some (Note.mk "b" "T" "meeting" none (some "   ") none none 0) ∧
      transcriptMissing (some "   ") = true ∧
      (finaliseMeeting
          (fun _ => some (Note.mk "b" "T" "meeting" none (some "   ")
            none none 0)) "b" 0).1
          = Except.error "Note must have transcript text to finalize") :=
  ⟨⟨rfl, ((finalise_precondition_errors (fun _ => none) "missing" 0).1 rfl).1⟩,
   ⟨rfl, by decide,
    (((finalise_precondition_errors _ "a" 0).2.1 _ rfl (by decide)).1)⟩,
   ⟨rfl, by decide,
    (((finalise_precondition_errors _ "b" 0).2.2 _ rfl rfl (by decide)).1)⟩⟩

/-! ### C3 — determinism of the processed result -/

/-- C3: the finalise outcome visible to the caller is a pure function
of the source flag and the transcript text: two notes with source
"meeting" and identical `transcript_text`, fetched from any stores
under any ids at any times, yield identical results — in particular
byte-identical `summary_text` and `entities` on success. -/
theorem finalise_deterministic :
    ∀ (s1 s2 : Store) (i1 i2 : String) (n1 n2 : Nat) (a b : Note),
      s1 i1 = some a → s2 i2 = some b →
      a.source = "meeting" → b.source = "meeting" →
      a.transcript_text = b.transcript_text →
      (finaliseMeeting s1 i1 n1).1 = (finaliseMeeting s2 i2 n2).1 := by
  intro s1 s2 i1 i2 n1 n2 a b h1 h2 hsa hsb htr
  simp only [finaliseMeeting, h1, h2, hsa, hsb, htr]
  split <;> (first | rfl | (split <;> rfl))

/-- C3 witness: two notes in different stores, under different ids,
titles, prior summaries and update times, but with the same transcript,
produce the same caller-visible result. -/
theorem finalise_deterministic_witness :
    ((fun i => if i = "a" then
        some (Note.mk "a" "First" "meeting" none
          (some "We decided to go. Fine!") none none 0)
      else none : Store) "a"
      = some (Note.mk "a" "First" "meeting" none
          (some "We decided to go. Fine!") none none 0)) ∧
    ((fun i => if i = "b" then
        some (Note.mk "b" "Second" "meeting" (some "body")
          (some "We decided to go. Fine!") (some "old summary") none 99)
      else none : Store) "b"
      = some (Note.mk "b" "Second" "meeting" (some "body")
          (some "We decided to go. Fine!") (some "old summary") none 99)) ∧
    (finaliseMeeting
        (fun i => if i = "a" then
          some (Note.mk "a" "First" "meeting" none
            (some "We decided to go. Fine!") none none 0)
         else none) "a" 1).1
      = (finaliseMeeting
        (fun i => if i = "b" then
          some (Note.mk "b" "Second" "meeting" (some "body")
            (some "We decided to go. Fine!") (some "old summary") none 99)
         else none) "b" 2).1 :=
  ⟨rfl, rfl,
   finalise_deterministic _ _ "a" "b" 1 2 _ _ rfl rfl rfl rfl rfl⟩

/-! ### C8 — the update happens only after the checks and the full
computation -/

/-- C8: every rejection of `finaliseMeeting` leaves the store exactly
as it was — no update call is made on a missing note or a failed
precondition — and on success the single update writes precisely the
fully computed `processTranscript` result (summary text and entities)
onto the fetched note. -/
theorem finalise_update_discipline :
    ∀ (store : Store) (noteId : String) (now : Nat),
      (∀ msg, (finaliseMeeting store noteId now).1 = Except.error msg →
        (finaliseMeeting store noteId now).2 = store) ∧
      (∀ note t, store noteId = some note → note.source = "meeting" →
        note.transcript_text = some t →
        transcriptMissing (some t) = false →
        (finaliseMeeting store noteId now).1
            = Except.ok (processTranscript t) ∧
        (finaliseMeeting store noteId now).2
            = fun i =>
                if i = noteId then
                  some { note with
                          summary_text := some (processTranscript t).1,
                          entities := some (processTranscript t).2,
                          updated_at := now }
                else store i) := by
  intro store noteId now
  constructor
  · intro msg hmsg
    cases hst : store noteId with
    | none => simp [finaliseMeeting, hst]
    | some note =>
      by_cases hsrc : note.source = "meeting"
      · by_cases htr : transcriptMissing note.transcript_text
        · simp [finaliseMeeting, hst, hsrc, htr]
        · exfalso
          simp [finaliseMeeting, hst, hsrc, htr] at hmsg
      · simp [finaliseMeeting, hst, hsrc]
  · intro note t hst hsrc htt htm
    constructor
    · simp [finaliseMeeting, hst, hsrc, htt, htm]
    · simp [finaliseMeeting, hst, hsrc, htt, htm]

/-- C8 witness: both parts at concrete stores — a rejected call (wrong
source) leaves the store untouched, and a successful call installs the
computed summary and entities. -/
theorem finalise_update_discipline_witness :
    ((finaliseMeeting
        (fun _ => some (Note.mk "a" "T" "manual" none (some "Hi there.")
          none none 0)) "a" 3).1
        = Except.error "Note must be from a meeting source to finalize" ∧
      (finaliseMeeting
        (fun _ => some (Note.mk "a" "T" "manual" none (some "Hi there.")
          none none 0)) "a" 3).2
        = (fun _ => some (Note.mk "a" "T" "manual" none (some "Hi there.")
          none none 0))) ∧
    ((fun _ => some (Note.mk "b" "T" "meeting" none (some "We decided to go.")
        none none 0) : Store) "b"
        = some (Note.mk "b" "T" "meeting" none (some "We decided to go.")
          none none 0) ∧
      transcriptMissing (some "We decided to go.") = false ∧
      (finaliseMeeting
        (fun _ => some (Note.mk "b" "T" "meeting" none (some "We decided to go.")
          none none 0)) "b" 3).1
        = Except.ok (processTranscript "We decided to go.")) :=
  ⟨⟨rfl,
    (finalise_update_discipline
      (fun _ => some (Note.mk "a" "T" "manual" none (some "Hi there.")
        none none 0)) "a" 3).1 _ rfl⟩,
   ⟨rfl, by decide,
    ((finalise_update_discipline
      (fun _ => some (Note.mk "b" "T" "meeting" none (some "We decided to go.")
        none none 0)) "b" 3).2 _ "We decided to go." rfl rfl rfl
        (by decide)).1⟩⟩

/-! ### C7 — the summary equals the fixed recipe -/

set_option maxHeartbeats 2000000 in
/-- C7: for every input, the synthesized summary equals the flat
recipe of the specification: in particular the "Key discussion point"
clause is present exactly when the sentence count exceeds 2, the middle
sentence exists, and its trimmed length exceeds 20; and the summary
always ends with the sentence reporting `ceil(totalSentences/10)`
minutes of discussion. -/
theorem summary_follows_recipe :
    ∀ (sentences people : List String) (decisions : List Decision),
      generateSummary sentences people decisions
          = specSummaryRecipe sentences people decisions ∧
      ∃ pre, generateSummary sentences people decisions
          = pre ++
            "The meeting covered various topics and lasted for approximately "
            ++ toString ((sentences.length + 9) / 10)
            ++ " minutes of discussion." := by
  intro sentences people decisions
  constructor
  · apply String.ext
    unfold generateSummary specSummaryRecipe
    repeat' split
    all_goals try simp_all [String.append_assoc, List.get?_eq_getElem?]
    all_goals repeat' split
    all_goals try simp_all [String.append_assoc]
    all_goals omega
  · exact ⟨_, rfl⟩

/-! ### C10 — character class facts and shape lemmas for the month
date matcher -/

/-- A whitespace character is not a digit. -/
theorem not_digit_of_ws (c : Char) (h1 : isJsWS c = true) :
    isDigit09 c = false := by
  simp only [isJsWS, Bool.or_eq_true, decide_eq_true_eq] at h1
  rcases h1 with ((((rfl | rfl) | rfl) | rfl) | rfl) | rfl <;> decide

/-- A digit is not whitespace. -/
theorem ws_false_of_digit (c : Char) (h : isDigit09 c = true) :
    isJsWS c = false := by
  cases hw : isJsWS c with
  | false => rfl
  | true => rw [not_digit_of_ws c hw] at h; cases h

/-- A digit is a word character. -/
theorem word_of_digit (c : Char) (h : isDigit09 c = true) :
    isWordChar c = true := by
  simp [isWordChar, h]

/-- A non-word character is not a digit. -/
theorem digit_false_of_not_word (c : Char) (h : isWordChar c = false) :
    isDigit09 c = false := by
  cases hd : isDigit09 c with
  | false => rfl
  | true => rw [word_of_digit c hd] at h; cases h

/-- A whitespace character is not the letter M. -/
theorem ne_M_of_ws (c : Char) (h : isJsWS c = true) : c ≠ 'M' := by
  rintro rfl; exact absurd h (by decide)

/-- A digit is not the letter M. -/
theorem ne_M_of_digit (c : Char) (h : isDigit09 c = true) : c ≠ 'M' := by
  rintro rfl; exact absurd h (by decide)

/-- `commaSplit` splits off at most a single leading comma. -/
theorem commaSplit_spec (l : List Char) :
    (commaSplit l).1 ++ (commaSplit l).2 = l ∧
    ((commaSplit l).1 = [] ∨ (commaSplit l).1 = [',']) := by
  unfold commaSplit
  split
  · exact ⟨rfl, Or.inr rfl⟩
  · exact ⟨rfl, Or.inl rfl⟩

/-- A successful `monthTail` match splits its input into the match and
the rest; the match is nonempty and consists of whitespace, digits and
commas only. -/
theorem monthTail_shape (r0 p1 r5 : List Char)
    (h : monthTail r0 = some (p1, r5)) :
    r0 = p1 ++ r5 ∧ p1 ≠ [] ∧
    (∀ c ∈ p1, isJsWS c = true ∨ isDigit09 c = true ∨ c = ',') := by
  simp only [monthTail] at h
  split at h
  · exact Option.noConfusion h
  · split at h
    · split at h
      · exact Option.noConfusion h
      · split at h
        · simp only [Option.some.injEq, Prod.mk.injEq] at h
          obtain ⟨hp1, hr5⟩ := h
          subst hp1
          subst hr5
          rename_i hws1 _ _ _
          have e1 := List.takeWhile_append_dropWhile isJsWS r0
          have e2 := List.takeWhile_append_dropWhile isDigit09
            (r0.dropWhile isJsWS)
          have e3 := (commaSplit_spec
            ((r0.dropWhile isJsWS).dropWhile isDigit09)).1
          have e4 := List.takeWhile_append_dropWhile isJsWS
            (commaSplit ((r0.dropWhile isJsWS).dropWhile isDigit09)).2
          have e5 := List.takeWhile_append_dropWhile isDigit09
            ((commaSplit ((r0.dropWhile isJsWS).dropWhile isDigit09)).2.dropWhile isJsWS)
          refine ⟨?_, ?_, ?_⟩
          · conv_lhs => rw [← e1, ← e2, ← e3, ← e4, ← e5]
            simp [List.append_assoc]
          · have hws1ne : r0.takeWhile isJsWS ≠ [] := by
              simpa [List.isEmpty_iff] using hws1
            simp [hws1ne]
          · intro c hc
            simp only [List.append_assoc, List.mem_append] at hc
            rcases hc with hc | hc | hc | hc | hc
            · exact Or.inl (List.mem_takeWhile_imp hc)
            · exact Or.inr (Or.inl (List.mem_takeWhile_imp hc))
            · rcases (commaSplit_spec _).2 with he | he
              · rw [he] at hc; cases hc
              · rw [he] at hc
                rcases List.mem_singleton.1 hc with rfl
                exact Or.inr (Or.inr rfl)
            · exact Or.inl (List.mem_takeWhile_imp hc)
            · exact Or.inr (Or.inl (List.mem_takeWhile_imp hc))
        · exact Option.noConfusion h
    · exact Option.noConfusion h

/-- A successful month date match splits its input into the match and
the rest; the match is a month name from the alternation followed by a
nonempty block of whitespace, digits and commas. -/
theorem tryMonthDateAt_shape (months : List String) (prev : Option Char)
    (s m r : List Char) (h : tryMonthDateAt months prev s = some (m, r)) :
    s = m ++ r ∧ m ≠ [] ∧
    ∃ mo ∈ months, ∃ t1, m = mo.data ++ t1 ∧ t1 ≠ [] ∧
      (∀ c ∈ t1, isJsWS c = true ∨ isDigit09 c = true ∨ c = ',') := by
  simp only [tryMonthDateAt] at h
  split at h
  · split at h
    · exact Option.noConfusion h
    · rename_i mo hfind
      rw [Option.map_eq_some'] at h
      obtain ⟨⟨p1, r5⟩, hmt, hpr⟩ := h
      simp only [Prod.mk.injEq] at hpr
      obtain ⟨hm, hr⟩ := hpr
      obtain ⟨he, hne, hmem⟩ := monthTail_shape _ _ _ hmt
      have hp : mo.data.isPrefixOf s = true := by
        simpa using List.find?_some hfind
      obtain ⟨t, ht⟩ := isPrefixOf_exists_append _ _ hp
      have hdrop : s.drop mo.length = t := by
        rw [ht]
        exact List.drop_left _ _
      rw [hdrop] at he
      refine ⟨?_, ?_, mo, List.mem_of_find?_eq_some hfind, p1, hm.symm, hne,
        hmem⟩
      · rw [ht, he, ← hr, ← hm]
        simp [List.append_assoc]
      · rw [← hm]
        simp [hne]
  · exact Option.noConfusion h

/-- No month date match can cross from a prefix into a following
letter M: month names contain no M after their first character, and the
rest of a match is whitespace, digits and commas.  A match found inside
the prefix therefore consumes part of the prefix only. -/
theorem tryMonthDateAt_no_cross (months : List String)
    (hM : ∀ mo ∈ months, ∀ c ∈ mo.data.drop 1, c ≠ 'M')
    (prev : Option Char) (pre Z m r : List Char) (hpre : pre ≠ [])
    (h : tryMonthDateAt months prev (pre ++ 'M' :: Z) = some (m, r)) :
    ∃ tail, pre = m ++ tail ∧ r = tail ++ 'M' :: Z := by
  obtain ⟨hs, hm, mo, hmo, t1, hmt, ht1ne, ht1⟩ :=
    tryMonthDateAt_shape _ _ _ _ _ h
  rcases List.append_eq_append_iff.1 hs with ⟨a, ha1, ha2⟩ | ⟨c, hc1, hc2⟩
  · cases a with
    | nil =>
      refine ⟨[], ?_, ?_⟩
      · rw [ha1]; simp
      · simpa using ha2.symm
    | cons a0 as =>
      exfalso
      have ha2' : 'M' :: Z = a0 :: (as ++ r) := by simpa using ha2
      have ha0 : a0 = 'M' := by
        injection ha2' with h1 _
        exact h1.symm
      subst ha0
      have hMm : 'M' ∈ m.drop 1 := by
        rw [ha1]
        cases pre with
        | nil => exact absurd rfl hpre
        | cons p ps => simp
      have hnoM : ∀ c ∈ m.drop 1, c ≠ 'M' := by
        intro c hc
        rw [hmt] at hc
        cases hmo' : mo.data with
        | nil =>
          rw [hmo'] at hc
          simp only [List.nil_append] at hc
          rcases ht1 c (List.mem_of_mem_drop hc) with hw | hd | hcm
          · exact ne_M_of_ws c hw
          · exact ne_M_of_digit c hd
          · subst hcm; decide
        | cons md0 mds =>
          rw [hmo'] at hc
          simp only [List.cons_append, List.drop_succ_cons,
            List.drop_zero] at hc
          rcases List.mem_append.1 hc with hcm | hct
          · have hfact := hM mo hmo
            rw [hmo'] at hfact
            exact hfact c (by simpa using hcm)
          · rcases ht1 c hct with hw | hd | hcm
            · exact ne_M_of_ws c hw
            · exact ne_M_of_digit c hd
            · subst hcm; decide
      exact hnoM 'M' hMm rfl
  · exact ⟨c, hc1, hc2⟩

/-- Passing one character moves `prevAt` one step. -/
theorem prevAt_cons (p0 : Char) (pre : List Char) (prev : Option Char) :
    prevAt (p0 :: pre) prev = prevAt pre (some p0) := by
  unfold prevAt
  cases pre with
  | nil => rfl
  | cons q qs =>
    rw [List.getLast?_cons_cons]
    cases hx : (q :: qs).getLast? with
    | none => exact absurd (List.getLast?_eq_none_iff.1 hx) (by simp)
    | some c => rfl

/-- After consuming a nonempty block `m` of the prefix, the previous
character seen by the scanner agrees with `prevAt` of the whole
prefix. -/
theorem prevAt_append (m tail : List Char) (p0 : Char) (pre : List Char)
    (prev : Option Char) (h : p0 :: pre = m ++ tail) (hm : m ≠ []) :
    prevAt tail (some (m.getLastD p0)) = prevAt (p0 :: pre) prev := by
  cases tail with
  | nil =>
    have hm2 : m = p0 :: pre := by simpa using h.symm
    subst hm2
    unfold prevAt
    cases hx : (p0 :: pre).getLast? with
    | none => exact absurd (List.getLast?_eq_none_iff.1 hx) (by simp)
    | some c => simp [hx, List.getLastD_eq_getLast?]
  | cons t0 ts =>
    unfold prevAt
    rw [h, List.getLast?_append_of_ne_nil m (by simp)]
    cases hx : (t0 :: ts).getLast? with
    | none => exact absurd (List.getLast?_eq_none_iff.1 hx) (by simp)
    | some c => rfl

/-- For a matcher whose matches are nonempty splits of the input, the
scan result does not depend on the fuel, as long as the fuel exceeds
the input length. -/
theorem scanAux_fuel_eq
    (tryAt : Option Char → List Char → Option (List Char × List Char))
    (hdec : ∀ prev s m r, tryAt prev s = some (m, r) → s = m ++ r ∧ m ≠ []) :
    ∀ (f1 f2 : Nat) (prev : Option Char) (s : List Char),
      s.length < f1 → s.length < f2 →
      scanAux tryAt f1 prev s = scanAux tryAt f2 prev s := by
  intro f1
  induction f1 with
  | zero => intro f2 prev s h1 h2; exact absurd h1 (Nat.not_lt_zero _)
  | succ f1 ih =>
    intro f2 prev s h1 h2
    cases f2 with
    | zero => exact absurd h2 (Nat.not_lt_zero _)
    | succ f2 =>
      cases s with
      | nil => rfl
      | cons c cs =>
        simp only [List.length_cons] at h1 h2
        rcases htry : tryAt prev (c :: cs) with _ | ⟨m, r⟩
        · simp only [scanAux, htry]
          exact ih f2 (some c) cs (by omega) (by omega)
        · obtain ⟨hs, hm⟩ := hdec _ _ _ _ htry
          have hlen : cs.length + 1 = m.length + r.length := by
            simpa [List.length_append] using congrArg List.length hs
          have hmpos : 0 < m.length := List.length_pos.2 hm
          simp only [scanAux, htry]
          rw [ih f2 (some (m.getLastD c)) r (by omega) (by omega)]

/-- Scanning a text of the form `pre ++ M :: Z` decomposes into the
matches found inside `pre` followed by the scan of `M :: Z` itself,
with the correct previous character and enough fuel left: no match
crosses the boundary in front of the letter M. -/
theorem scanAux_through (months : List String)
    (hM : ∀ mo ∈ months, ∀ c ∈ mo.data.drop 1, c ≠ 'M') :
    ∀ (n : Nat) (pre : List Char), pre.length ≤ n →
      ∀ (Z : List Char) (prev : Option Char) (fuel : Nat),
        (pre ++ 'M' :: Z).length < fuel →
        ∃ (l : List (List Char)) (fuel2 : Nat),
          scanAux (tryMonthDateAt months) fuel prev (pre ++ 'M' :: Z)
              = l ++ scanAux (tryMonthDateAt months) fuel2
                  (prevAt pre prev) ('M' :: Z) ∧
          ('M' :: Z).length < fuel2 := by
  intro n
  induction n with
  | zero =>
    intro pre hlen Z prev fuel hfuel
    obtain rfl : pre = [] := List.length_eq_zero.1 (Nat.le_zero.1 hlen)
    exact ⟨[], fuel, by simp [prevAt], by simpa using hfuel⟩
  | succ n ih =>
    intro pre hlen Z prev fuel hfuel
    cases pre with
    | nil => exact ⟨[], fuel, by simp [prevAt], by simpa using hfuel⟩
    | cons p0 pre' =>
      simp only [List.length_cons] at hlen
      cases fuel with
      | zero =>
        exact absurd hfuel (Nat.not_lt_zero _)
      | succ fuel =>
        simp only [List.cons_append, List.length_cons,
          List.length_append] at hfuel
        rcases htry : tryMonthDateAt months prev
            (p0 :: (pre' ++ 'M' :: Z)) with _ | ⟨m, r⟩
        · obtain ⟨l, fuel2, heq, hf2⟩ := ih pre' (by omega) Z (some p0) fuel
            (by simp [List.length_append]; omega)
          refine ⟨l, fuel2, ?_, hf2⟩
          simp only [List.cons_append, List.append_eq, scanAux, htry]
          rw [heq, prevAt_cons]
        · have htry' : tryMonthDateAt months prev
              ((p0 :: pre') ++ 'M' :: Z) = some (m, r) := by
            simpa using htry
          obtain ⟨tail, htail1, htail2⟩ := tryMonthDateAt_no_cross months hM
            prev (p0 :: pre') Z m r (by simp) htry'
          obtain ⟨-, hm, -⟩ := tryMonthDateAt_shape _ _ _ _ _ htry'
          have hlentail : pre'.length + 1 = m.length + tail.length := by
            simpa [List.length_append] using congrArg List.length htail1
          have hmpos : 0 < m.length := List.length_pos.2 hm
          subst htail2
          obtain ⟨l, fuel2, heq, hf2⟩ := ih tail (by omega) Z
            (some (m.getLastD p0)) fuel
            (by simp [List.length_append]; omega)
          refine ⟨m :: l, fuel2, ?_, hf2⟩
          simp only [List.cons_append, List.append_eq, scanAux, htry]
          rw [heq, prevAt_append m tail p0 pre' prev htail1 hm]

/-- The month tail matcher at a well-formed date tail: one space, a
day of one or two digits, a comma, one space, a four-digit year, then a
boundary. -/
theorem monthTail_at_date (d y post : List Char)
    (hd1 : d ≠ []) (hd2 : d.length = 1 ∨ d.length = 2)
    (hd3 : ∀ c ∈ d, isDigit09 c = true)
    (hy1 : y.length = 4) (hy2 : ∀ c ∈ y, isDigit09 c = true)
    (hpost : ∀ c, post.head? = some c → isWordChar c = false) :
    monthTail (' ' :: (d ++ ',' :: ' ' :: (y ++ post)))
      = some ([' '] ++ d ++ [','] ++ [' '] ++ y, post) := by
  obtain ⟨d0, d', rfl⟩ : ∃ d0 d', d = d0 :: d' := by
    cases d with
    | nil => exact absurd rfl hd1
    | cons a b => exact ⟨a, b, rfl⟩
  obtain ⟨y0, y', rfl⟩ : ∃ y0 y', y = y0 :: y' := by
    cases y with
    | nil => simp at hy1
    | cons a b => exact ⟨a, b, rfl⟩
  have hsp : isJsWS ' ' = true := by decide
  have hcomma : isDigit09 ',' = false := by decide
  have hcommaw : isJsWS ',' = false := by decide
  have hd0 : isJsWS d0 = false := ws_false_of_digit d0 (hd3 d0 (by simp))
  have hy0 : isJsWS y0 = false := ws_false_of_digit y0 (hy2 y0 (by simp))
  have hpostT : post.takeWhile isDigit09 = [] := by
    cases post with
    | nil => rfl
    | cons p0 ps =>
      simp [List.takeWhile_cons,
        digit_false_of_not_word p0 (hpost p0 rfl)]
  have hpostD : post.dropWhile isDigit09 = post := by
    cases post with
    | nil => rfl
    | cons p0 ps =>
      simp [List.dropWhile_cons,
        digit_false_of_not_word p0 (hpost p0 rfl)]
  have h1 : (' ' :: ((d0 :: d') ++ ',' :: ' ' :: ((y0 :: y') ++ post))).takeWhile isJsWS
      = [' '] := by
    simp [List.takeWhile_cons, hsp, hd0]
  have h2 : (' ' :: ((d0 :: d') ++ ',' :: ' ' :: ((y0 :: y') ++ post))).dropWhile isJsWS
      = (d0 :: d') ++ ',' :: ' ' :: ((y0 :: y') ++ post) := by
    simp [List.dropWhile_cons, hsp, hd0]
  have h3 : ((d0 :: d') ++ ',' :: ' ' :: ((y0 :: y') ++ post)).takeWhile isDigit09
      = d0 :: d' := by
    rw [takeWhile_append_all isDigit09 _ _ hd3]
    simp [List.takeWhile_cons, hcomma]
  have h4 : ((d0 :: d') ++ ',' :: ' ' :: ((y0 :: y') ++ post)).dropWhile isDigit09
      = ',' :: ' ' :: ((y0 :: y') ++ post) := by
    rw [dropWhile_append_all isDigit09 _ _ hd3]
    simp [List.dropWhile_cons, hcomma]
  have h5 : commaSplit (',' :: ' ' :: ((y0 :: y') ++ post))
      = ([','], ' ' :: ((y0 :: y') ++ post)) := rfl
  have h6 : (' ' :: ((y0 :: y') ++ post)).takeWhile isJsWS = [' '] := by
    simp [List.takeWhile_cons, hsp, hy0]
  have h7 : (' ' :: ((y0 :: y') ++ post)).dropWhile isJsWS
      = (y0 :: y') ++ post := by
    simp [List.dropWhile_cons, hsp, hy0]
  have h8 : ((y0 :: y') ++ post).takeWhile isDigit09 = y0 :: y' := by
    rw [takeWhile_append_all isDigit09 _ _ hy2, hpostT]
    simp
  have h9 : ((y0 :: y') ++ post).dropWhile isDigit09 = post := by
    rw [dropWhile_append_all isDigit09 _ _ hy2, hpostD]
  have hbdry : bdryAfter post = true := by
    cases post with
    | nil => rfl
    | cons p0 ps => simp [bdryAfter, hpost p0 rfl]
  have hdl : (decide ((d0 :: d').length = 1) ||
      decide ((d0 :: d').length = 2)) = true := by
    rcases hd2 with h | h <;> simp [h]
  have hyl : (decide ((y0 :: y').length = 4) && bdryAfter post) = true := by
    simp [hy1, hbdry]
  simp only [monthTail, h1, h2, h3, h4, h5, h6, h7, h8, h9]
  rw [if_neg (by simp), if_pos hdl, if_neg (by simp), if_pos hyl]

/-- The full month alternation at the word "May": the first and only
prefix-matching alternative is "May". -/
theorem find?_fulls_at_may (s : List Char) :
    monthFulls.find? (fun m => m.data.isPrefixOf ('M' :: 'a' :: 'y' :: ' ' :: s))
      = some "May" := rfl

/-- The abbreviated month alternation at the word "May": the first and
only prefix-matching alternative is "May". -/
theorem find?_abbrs_at_may (s : List Char) :
    monthAbbrs.find? (fun m => m.data.isPrefixOf ('M' :: 'a' :: 'y' :: ' ' :: s))
      = some "May" := rfl

/-- Either month date pattern, positioned at a boundary in front of a
well-formed May date, matches exactly that date. -/
theorem tryMonthDateAt_at_may (months : List String) (prev : Option Char)
    (d y post : List Char) (hprev : bdryBefore prev = true)
    (hfind : months.find?
        (fun m => m.data.isPrefixOf
          ('M' :: 'a' :: 'y' :: ' ' :: (d ++ ',' :: ' ' :: (y ++ post))))
      = some "May")
    (hd1 : d ≠ []) (hd2 : d.length = 1 ∨ d.length = 2)
    (hd3 : ∀ c ∈ d, isDigit09 c = true)
    (hy1 : y.length = 4) (hy2 : ∀ c ∈ y, isDigit09 c = true)
    (hpost : ∀ c, post.head? = some c → isWordChar c = false) :
    tryMonthDateAt months prev
        ('M' :: 'a' :: 'y' :: ' ' :: (d ++ ',' :: ' ' :: (y ++ post)))
      = some (mayDate d y, post) := by
  have hdrop : ('M' :: 'a' :: 'y' :: ' ' :: (d ++ ',' :: ' ' :: (y ++ post))).drop
      (String.length "May") = ' ' :: (d ++ ',' :: ' ' :: (y ++ post)) := rfl
  simp only [tryMonthDateAt, hprev, if_true, hfind, hdrop,
    monthTail_at_date d y post hd1 hd2 hd3 hy1 hy2 hpost]
  simp [mayDate]

/-! ### C10 — the double emission of May dates -/

/-- C10: for every sentence of the form `pre ++ "May D, YYYY" ++ post`
in which the date occurrence is boundary-delimited (`pre` ends in a
non-word character or is empty; `post` starts with one or is empty),
with a 1-2 digit day and a 4-digit year, the single occurrence is
matched by BOTH the full-month-name pattern and the abbreviated-month
pattern — "May" sits in both alternations — and the per-sentence date
collection therefore emits two (identical, non-deduplicated) entries
for it, the full-month one first. -/
theorem may_date_double_emission :
    ∀ (pre post d y : List Char),
      (∀ c, pre.getLast? = some c → isWordChar c = false) →
      (∀ c, post.head? = some c → isWordChar c = false) →
      d ≠ [] → (d.length = 1 ∨ d.length = 2) →
      (∀ c ∈ d, isDigit09 c = true) →
      y.length = 4 → (∀ c ∈ y, isDigit09 c = true) →
      (∃ l r, scanMatches (tryMonthDateAt monthFulls)
          (pre ++ (mayDate d y ++ post)) = l ++ mayDate d y :: r) ∧
      (∃ l r, scanMatches (tryMonthDateAt monthAbbrs)
          (pre ++ (mayDate d y ++ post)) = l ++ mayDate d y :: r) ∧
      (∃ l1 l2 l3, dateMatchesIn (pre ++ (mayDate d y ++ post))
          = l1 ++ mayDate d y :: (l2 ++ mayDate d y :: l3)) := by
  intro pre post d y hpre hpost hd1 hd2 hd3 hy1 hy2
  have hZ : mayDate d y ++ post
      = 'M' :: ('a' :: 'y' :: ' ' :: (d ++ ',' :: ' ' :: (y ++ post))) := by
    simp [mayDate]
  have hb : bdryBefore (prevAt pre none) = true := by
    unfold prevAt bdryBefore
    cases hx : pre.getLast? with
    | none => rfl
    | some c => simp [hpre c hx]
  have main : ∀ months : List String,
      (∀ mo ∈ months, ∀ c ∈ mo.data.drop 1, c ≠ 'M') →
      months.find?
        (fun m => m.data.isPrefixOf
          ('M' :: 'a' :: 'y' :: ' ' :: (d ++ ',' :: ' ' :: (y ++ post))))
        = some "May" →
      ∃ l r, scanMatches (tryMonthDateAt months)
          (pre ++ (mayDate d y ++ post)) = l ++ mayDate d y :: r := by
    intro months hM hfind
    rw [hZ]
    unfold scanMatches
    obtain ⟨l, fuel2, heq, hf2⟩ := scanAux_through months hM pre.length pre
      le_rfl ('a' :: 'y' :: ' ' :: (d ++ ',' :: ' ' :: (y ++ post))) none
      ((pre ++ 'M' :: ('a' :: 'y' :: ' ' :: (d ++ ',' :: ' ' :: (y ++ post)))).length + 1)
      (Nat.lt_succ_self _)
    rw [heq]
    cases fuel2 with
    | zero => exact absurd hf2 (Nat.not_lt_zero _)
    | succ f2 =>
      have hmay := tryMonthDateAt_at_may months (prevAt pre none) d y post
        hb hfind hd1 hd2 hd3 hy1 hy2 hpost
      simp only [scanAux, hmay]
      exact ⟨l, _, rfl⟩
  obtain ⟨l3, r3, h3⟩ := main monthFulls (by decide) (find?_fulls_at_may _)
  obtain ⟨l4, r4, h4⟩ := main monthAbbrs (by decide) (find?_abbrs_at_may _)
  refine ⟨⟨l3, r3, h3⟩, ⟨l4, r4, h4⟩, ?_⟩
  refine ⟨scanMatches (tryNumDateAt '/') (pre ++ (mayDate d y ++ post)) ++
    scanMatches (tryNumDateAt '-') (pre ++ (mayDate d y ++ post)) ++ l3,
    r3 ++ l4, r4, ?_⟩
  simp only [dateMatchesIn, h3, h4]
  simp [List.append_assoc]

/-- C10 witness: the general theorem at the sentence
"Due May 5, 2024." (prefix "Due ", suffix "."), exhibiting the two
identical entries in the per-sentence date collection. -/
theorem may_date_double_emission_witness :
    (∀ c, "Due ".data.getLast? = some c → isWordChar c = false) ∧
    (∀ c, ['.'].head? = some c → isWordChar c = false) ∧
    (∃ l1 l2 l3, dateMatchesIn
        ("Due ".data ++ (mayDate ['5'] ['2', '0', '2', '4'] ++ ['.']))
      = l1 ++ mayDate ['5'] ['2', '0', '2', '4'] ::
          (l2 ++ mayDate ['5'] ['2', '0', '2', '4'] :: l3)) :=
  ⟨fun c hc => by
      rw [show "Due ".data.getLast? = some ' ' from rfl] at hc
      injection hc with hc2
      subst hc2
      decide,
   fun c hc => by
      injection hc with hc2
      subst hc2
      decide,
   (may_date_double_emission "Due ".data ['.'] ['5'] ['2', '0', '2', '4']
      (fun c hc => by
        rw [show "Due ".data.getLast? = some ' ' from rfl] at hc
        injection hc with hc2
        subst hc2
        decide)
      (fun c hc => by
        injection hc with hc2
        subst hc2
        decide)
      (by decide) (by decide) (by decide) (by decide) (by decide)).2.2⟩

end Meeting
